import Mathlib

/-!
Verification of the fire-risk training repository.

Shallow embedding conventions:
* Real-valued quantities are modelled exactly as rationals (ℚ); transcendental
  per-element functions of the code (sigmoid, per-pixel binary cross-entropy)
  are abstract function parameters, constrained only where a claim needs it.
* numpy / paddle tensors are modelled as flat lists of their elements; the
  channel axis of a dataset sample is a list of abstract 2-D fields.
* Randomness (np.random.shuffle) is an explicit function argument, assumed to
  permute its input where a claim needs it.
* Fallible code returns Except.
-/

namespace FireRisk

/-- Embedding of `utils/data_split_musk.py::generate_binary_sequence`.
`shuffle` stands for `np.random.shuffle`; `zfrac` is the `zero_ratio`
argument.  Python's `int()` of the nonnegative product truncates, i.e.
takes the floor; the guard `0 <= zero_ratio <= 1` raises ValueError
("InvalidInput") when violated. -/
def generate_binary_sequence (shuffle : List ℕ → List ℕ) (length : ℕ)
    (zfrac : ℚ) : Except String (List ℕ) :=
  if ¬ (0 ≤ zfrac ∧ zfrac ≤ 1) then
    Except.error "InvalidInput"
  else
    let zeros_count : ℕ := (⌊(length : ℚ) * zfrac⌋).toNat
    let ones_count : ℕ := length - zeros_count
    Except.ok (shuffle (List.replicate zeros_count 0 ++ List.replicate ones_count 1))

lemma zeros_count_le (length : ℕ) (zfrac : ℚ) (h1 : zfrac ≤ 1) :
    (⌊(length : ℚ) * zfrac⌋).toNat ≤ length := by
  have hmul : (length : ℚ) * zfrac ≤ (length : ℚ) := by
    calc (length : ℚ) * zfrac ≤ (length : ℚ) * 1 := by
          apply mul_le_mul_of_nonneg_left h1
          exact_mod_cast Nat.zero_le length
      _ = (length : ℚ) := mul_one _
  have hfl : ⌊(length : ℚ) * zfrac⌋ ≤ (length : ℤ) := by
    have := Int.floor_le_floor hmul
    simpa using this
  omega

/-- Embedding of `utils/dataloader.py::FireRiskDataset`.
`V` is the type of variable names, `α` the type of one 2-D field
(one variable at one time step; an `npy_data[t]` label slice is the same
kind of object).  `ds1`, `ds2` give a variable's field at a `valid_time`
index; `f32` stands for `astype('float32')`.  The `transform` argument
defaults to None and is never set anywhere in the repository, so the
None path is what is embedded. -/
structure FireRiskDataset (V α : Type) where
  ds1 : V → ℕ → α
  ds2 : V → ℕ → α
  npy_data : ℕ → α
  nc1_variables : List V
  nc2_variables : List V
  total_time_steps : ℕ
  sequence_length : ℕ
  f32 : α → α

/-- `FireRiskDataset.__len__`: total time steps minus the sequence length. -/
def FireRiskDataset.len {V α : Type} (d : FireRiskDataset V α) : ℕ :=
  d.total_time_steps - d.sequence_length

/-- `FireRiskDataset.__getitem__`: six per-time-step stacks of the nc1 (land)
variables over `[index, index + sequence_length)` concatenated along the
channel axis, then the stack of the nc2 (pressure) variables at
`end_time - 1`; the label is `npy_data[start_time]`.  Both outputs are cast
with `astype('float32')`. -/
def FireRiskDataset.getitem {V α : Type} (d : FireRiskDataset V α) (index : ℕ) :
    List α × α :=
  let start_time := index
  let end_time := start_time + d.sequence_length
  let nc1_sequence : List (List α) :=
    (List.range' start_time d.sequence_length).map
      (fun i => d.nc1_variables.map (fun v => d.ds1 v i))
  let nc2_combined : List α :=
    d.nc2_variables.map (fun v => d.ds2 v (end_time - 1))
  let label := d.npy_data start_time
  let nc1_combined : List α := nc1_sequence.flatten
  let input_data : List α := nc1_combined ++ nc2_combined
  (input_data.map d.f32, d.f32 label)

/-- A paddle tensor result: either a scalar produced by a reduction, or an
unreduced tensor (list of per-pixel values). -/
inductive PTensor
  | scalar (q : ℚ)
  | vec (l : List ℚ)
deriving DecidableEq

/-- Embedding of `utils/metrics.py::PixelBinaryCrossEntropyLoss` construction
state (`weight`, `reduction`, `ignore_index`). -/
structure PixelBinaryCrossEntropyLoss where
  weight : Option (List ℚ)
  reduction : String
  ignore_index : ℚ

/-- `PixelBinaryCrossEntropyLoss.forward`.  Tensors are flat lists of pixels
(the `[N,1,H,W] → [N,H,W]` squeeze does not change the element multiset).
`sigmoid` stands for `F.sigmoid` and `bce` for the per-element
`F.binary_cross_entropy` with reduction `none`; both are exact real
functions abstracted as parameters. -/
def PixelBinaryCrossEntropyLoss.forward (self : PixelBinaryCrossEntropyLoss)
    (sigmoid : ℚ → ℚ) (bce : ℚ → ℚ → ℚ) (logits label : List ℚ) : PTensor :=
  let mask : List ℚ := label.map (fun y => if y ≠ self.ignore_index then 1 else 0)
  let prob : List ℚ := logits.map sigmoid
  let loss0 : List ℚ := List.zipWith bce prob label
  let loss1 : List ℚ := List.zipWith (· * ·) loss0 mask
  let loss2 : List ℚ :=
    match self.weight with
    | some w => List.zipWith (· * ·) loss1 w
    | none => loss1
  if self.reduction = "mean" then
    if 0 < mask.sum then PTensor.scalar (loss2.sum / mask.sum)
    else PTensor.scalar ((loss2.sum / (loss2.length : ℚ)) * 0)
  else if self.reduction = "sum" then PTensor.scalar loss2.sum
  else PTensor.vec loss2

/-- numpy `astype('int64')` on an exact value: truncation toward zero. -/
def truncToInt (q : ℚ) : ℤ := if 0 ≤ q then ⌊q⌋ else ⌈q⌉

/-- The hard prediction `(F.sigmoid(pred) > threshold).astype('int64')` of
`utils/metrics.py::pixel_binary_accuracy`. -/
def hardPredict (sigmoid : ℚ → ℚ) (threshold : ℚ) (pred : List ℚ) : List ℤ :=
  (pred.map sigmoid).map (fun p => if threshold < p then 1 else 0)

/-- Embedding of `utils/metrics.py::pixel_binary_accuracy` (tensors as flat
lists of pixels; the squeeze is element-preserving). -/
def pixel_binary_accuracy (sigmoid : ℚ → ℚ) (pred label : List ℚ)
    (threshold : ℚ) (ignore_index : ℚ) : ℚ :=
  let binary_pred : List ℤ := hardPredict sigmoid threshold pred
  let valid_mask : List Bool := label.map (fun y => decide (y ≠ ignore_index))
  let correct : List Bool :=
    List.zipWith (· && ·)
      (List.zipWith (fun (bp : ℤ) (y : ℚ) => decide (bp = truncToInt y))
        binary_pred label)
      valid_mask
  let total_valid : ℚ := (valid_mask.map (fun b => if b then (1 : ℚ) else 0)).sum
  if 0 < total_valid then
    (correct.map (fun b => if b then (1 : ℚ) else 0)).sum / total_valid
  else 0

/-- Embedding of `model.py::BinarySegmentationHead`: `conv` is the 1×1
convolution with its fixed weights (an abstract map from the input to the
list of per-pixel logits), `sigmoid` the activation stored by `__init__`. -/
structure BinarySegmentationHead (α : Type) where
  conv : α → List ℚ
  sigmoid : ℚ → ℚ

/-- `BinarySegmentationHead.forward`: logits, sigmoid probabilities, then
either the strict thresholding `(probabilities > threshold).float()` or the
raw probabilities. -/
def BinarySegmentationHead.forward {α : Type} (self : BinarySegmentationHead α)
    (x : α) (hard_labels : Bool) (threshold : ℚ) : List ℚ :=
  let y := self.conv x
  let probabilities := y.map self.sigmoid
  if hard_labels then
    probabilities.map (fun p => if threshold < p then 1 else 0)
  else
    probabilities

/-- Trace of the split-mask handling in `train.py::train_model`: the
argument pairs of every `generate_binary_sequence` call made during the
run (in program order), the computed `len_val` and `len_train`, and the
split mask each epoch's loops consult. -/
structure TrainTrace where
  genCalls : List (ℕ × ℚ)
  len_val : ℕ
  len_train : ℕ
  epochMasks : List (Except String (List ℕ))

/-- Embedding of the split-mask logic of `train.py::train_model`
(lines 64–67 and the epoch loop, lines 80–128): `len_val`, `len_train` and
`data_split_musk` are computed once, before the loop; every one of the
`epochs` epochs then reads that same `data_split_musk`.  `vfrac` is the
`val_ratio` argument. -/
def train_model_trace (shuffle : List ℕ → List ℕ) (len_data : ℕ)
    (vfrac : ℚ) (epochs : ℕ) : TrainTrace :=
  let len_val : ℕ := (⌊vfrac * (len_data : ℚ)⌋).toNat
  let len_train : ℕ := len_data - len_val
  let data_split_musk := generate_binary_sequence shuffle len_data vfrac
  ⟨[(len_data, vfrac)], len_val, len_train,
    List.replicate epochs data_split_musk⟩

/-- The epochs at which `train_model` writes a parameter checkpoint, in
order: inside the loop after every epoch divisible by 10 (train.py
lines 140–141), plus one final save after the loop when `epochs` is not
itself divisible by 10 (lines 143–144). -/
def checkpointEpochs (epochs : ℕ) : List ℕ :=
  ((List.range' 1 epochs).filter (fun e => decide (e % 10 = 0))) ++
    (if epochs % 10 ≠ 0 then [epochs] else [])

/-- The accumulator variables of `train_model`'s per-epoch evaluation phase.
A Python local that has not been assigned is `none`; reading it raises
UnboundLocalError.  Field order: total_train_loss, total_train_acc,
total_train_f1, total_val_loss, total_val_acc, total_val_f1. -/
structure EvalAccs where
  total_train_loss : Option ℚ
  total_train_acc : Option ℚ
  total_train_f1 : Option ℚ
  total_val_loss : Option ℚ
  total_val_acc : Option ℚ
  total_val_f1 : Option ℚ
deriving DecidableEq

/-- The accumulators as they stand when the evaluation loop is entered
(train.py lines 111–114): the four loss/accuracy accumulators are assigned
0; the two F1 accumulators are assigned nowhere earlier in the function, so
they are unbound. -/
def initEvalAccs : EvalAccs :=
  ⟨some 0, some 0, none, some 0, some 0, none⟩

/-- One batch of the evaluation loop (train.py lines 115–128): a batch with
mask bit 1 adds its loss, accuracy and F1 to the training accumulators, a
batch with mask bit 0 to the validation accumulators; each `+=` reads the
accumulator first and the whole statement block fails when one of the reads
is unbound. -/
def evalBatchStep (s : EvalAccs) (maskbit : ℕ) (lossv accv f1v : ℚ) :
    Option EvalAccs :=
  if maskbit = 1 then
    match s.total_train_loss, s.total_train_acc, s.total_train_f1 with
    | some l, some a, some f =>
        some ⟨some (l + lossv), some (a + accv), some (f + f1v),
          s.total_val_loss, s.total_val_acc, s.total_val_f1⟩
    | _, _, _ => none
  else if maskbit = 0 then
    match s.total_val_loss, s.total_val_acc, s.total_val_f1 with
    | some l, some a, some f =>
        some ⟨s.total_train_loss, s.total_train_acc, s.total_train_f1,
          some (l + lossv), some (a + accv), some (f + f1v)⟩
    | _, _, _ => none
  else some s

lemma generate_mem_binary (shuffle : List ℕ → List ℕ)
    (hperm : ∀ l, List.Perm (shuffle l) l) (length : ℕ) (zfrac : ℚ)
    (s : List ℕ)
    (h : generate_binary_sequence shuffle length zfrac = Except.ok s) :
    ∀ x ∈ s, x = 0 ∨ x = 1 := by
  intro x hx
  unfold generate_binary_sequence at h
  by_cases hc : ¬ (0 ≤ zfrac ∧ zfrac ≤ 1)
  · rw [if_pos hc] at h
    cases h
  · rw [if_neg hc] at h
    have hs := (Except.ok.injEq _ _).mp h.symm
    subst hs
    have hx' := (hperm _).mem_iff.mp hx
    rcases List.mem_append.mp hx' with h | h
    · exact Or.inl (List.eq_of_mem_replicate h)
    · exact Or.inr (List.eq_of_mem_replicate h)

lemma sum_indicator_eq_countP (ig : ℚ) (label : List ℚ) :
    (label.map (fun y => if y ≠ ig then (1 : ℚ) else 0)).sum =
      (label.countP (fun y => decide (y ≠ ig)) : ℚ) := by
  induction label with
  | nil => simp
  | cons a t ih =>
    rw [List.map_cons, List.sum_cons, List.countP_cons, ih]
    by_cases h : a = ig <;> simp [h] <;> push_cast <;> ring

lemma masked_loss_eq (ig : ℚ) (bce : ℚ → ℚ → ℚ) :
    ∀ ps ys : List ℚ,
      List.zipWith (· * ·) (List.zipWith bce ps ys)
        (ys.map (fun y => if y ≠ ig then (1 : ℚ) else 0)) =
      List.zipWith (fun p y => if y = ig then 0 else bce p y) ps ys := by
  intro ps
  induction ps with
  | nil => intro ys; simp
  | cons p pt ih =>
    intro ys
    cases ys with
    | nil => simp
    | cons y yt =>
      simp only [List.zipWith_cons_cons, List.map_cons]
      rw [ih yt]
      by_cases h : y = ig <;> simp [h]

lemma sum_boolInd_eq_count (bs : List Bool) :
    (bs.map (fun b => if b then (1 : ℚ) else 0)).sum = (bs.count true : ℚ) := by
  induction bs with
  | nil => simp
  | cons b t ih =>
    cases b <;> simp [List.count_cons, ih] <;> push_cast <;> ring

lemma count_true_map_eq_countP (p : ℚ → Bool) (l : List ℚ) :
    (l.map p).count true = l.countP p := by
  induction l with
  | nil => simp
  | cons a t ih =>
    cases hp : p a <;> simp [List.count_cons, List.countP_cons, hp, ih]

lemma zipWith_and_map (f : ℤ → ℚ → Bool) (g : ℚ → Bool) :
    ∀ (bs : List ℤ) (ys : List ℚ),
      List.zipWith (· && ·) (List.zipWith f bs ys) (ys.map g) =
      List.zipWith (fun b y => f b y && g y) bs ys := by
  intro bs
  induction bs with
  | nil => intro ys; simp
  | cons b bt ih =>
    intro ys
    cases ys with
    | nil => simp
    | cons y yt =>
      simp only [List.zipWith_cons_cons, List.map_cons]
      rw [ih yt]

lemma truncToInt_intCast (b : ℤ) : truncToInt (b : ℚ) = b := by
  unfold truncToInt
  split <;> simp

lemma hardPredict_mem (sigmoid : ℚ → ℚ) (threshold : ℚ) (pred : List ℚ) :
    ∀ b ∈ hardPredict sigmoid threshold pred, b = 0 ∨ b = 1 := by
  intro b hb
  simp only [hardPredict, List.map_map, List.mem_map] at hb
  obtain ⟨p, _, rfl⟩ := hb
  simp only [Function.comp]
  split <;> simp

lemma hardPredict_cons (sigmoid : ℚ → ℚ) (threshold p : ℚ) (ps : List ℚ) :
    hardPredict sigmoid threshold (p :: ps) =
      (if threshold < sigmoid p then 1 else 0) :: hardPredict sigmoid threshold ps :=
  rfl

lemma code_correct_eq_claim (ig : ℚ) :
    ∀ (bs : List ℤ) (ys : List ℚ),
      (∀ b ∈ bs, b = 0 ∨ b = 1) →
      (∀ y ∈ ys, y = 0 ∨ y = 1 ∨ y = ig) →
      List.zipWith (fun (b : ℤ) (y : ℚ) =>
          decide (b = truncToInt y) && decide (y ≠ ig)) bs ys =
      List.zipWith (fun (b : ℤ) (y : ℚ) =>
          decide ((b : ℚ) = y) && decide (y ≠ ig)) bs ys := by
  intro bs
  induction bs with
  | nil => intro ys _ _; simp
  | cons b bt ih =>
    intro ys hb hy
    cases ys with
    | nil => simp
    | cons y yt =>
      have hb0 := hb b (List.mem_cons_self b bt)
      have hy0 := hy y (List.mem_cons_self y yt)
      simp only [List.zipWith_cons_cons]
      rw [ih yt (fun x hx => hb x (List.mem_cons_of_mem _ hx))
        (fun x hx => hy x (List.mem_cons_of_mem _ hx))]
      congr 1
      by_cases hig : y = ig
      · simp [hig]
      · rcases hy0 with rfl | rfl | rfl
        · rcases hb0 with rfl | rfl <;> norm_num [truncToInt]
        · rcases hb0 with rfl | rfl <;> norm_num [truncToInt]
        · exact absurd rfl hig

lemma correct_congr (sigmoid : ℚ → ℚ) (threshold ig : ℚ) :
    ∀ (ys p1 p2 : List ℚ), p1.length = ys.length → p2.length = ys.length →
      (∀ pr ∈ p1.zip (p2.zip ys), pr.2.2 ≠ ig → pr.1 = pr.2.1) →
      List.zipWith (fun (b : ℤ) (y : ℚ) =>
          decide (b = truncToInt y) && decide (y ≠ ig))
        (hardPredict sigmoid threshold p1) ys =
      List.zipWith (fun (b : ℤ) (y : ℚ) =>
          decide (b = truncToInt y) && decide (y ≠ ig))
        (hardPredict sigmoid threshold p2) ys := by
  intro ys
  induction ys with
  | nil => intro p1 p2 _ _ _; simp
  | cons y yt ih =>
    intro p1 p2 h1 h2 hagree
    cases p1 with
    | nil => simp at h1
    | cons a at1 =>
      cases p2 with
      | nil => simp at h2
      | cons c ct =>
        rw [hardPredict_cons, hardPredict_cons]
        simp only [List.zipWith_cons_cons]
        have htail := ih at1 ct (by simpa using h1) (by simpa using h2)
          (fun pr hpr => hagree pr
            (by simp only [List.zip_cons_cons]; exact List.mem_cons_of_mem _ hpr))
        rw [htail]
        congr 1
        by_cases hig : y = ig
        · simp [hig]
        · have hhead : a = c := by
            have := hagree (a, (c, y))
              (by simp only [List.zip_cons_cons]; exact List.mem_cons_self ..)
            exact this hig
          rw [hhead]

lemma correct_count_of_agree (sigmoid : ℚ → ℚ) (threshold ig : ℚ) :
    ∀ (ps ys : List ℚ), ps.length = ys.length →
      (∀ pr ∈ (hardPredict sigmoid threshold ps).zip ys,
        pr.2 ≠ ig → (pr.1 : ℚ) = pr.2) →
      (List.zipWith (fun (b : ℤ) (y : ℚ) =>
          decide (b = truncToInt y) && decide (y ≠ ig))
        (hardPredict sigmoid threshold ps) ys).count true =
      ys.countP (fun y => decide (y ≠ ig)) := by
  intro ps
  induction ps with
  | nil =>
    intro ys hlen _
    have : ys = [] := List.length_eq_zero.mp (by simpa using hlen.symm)
    subst this
    simp
  | cons p pt ih =>
    intro ys hlen hagree
    cases ys with
    | nil => simp at hlen
    | cons y yt =>
      rw [hardPredict_cons] at hagree ⊢
      simp only [List.zipWith_cons_cons, List.countP_cons]
      have htail := ih yt (by simpa using hlen)
        (fun pr hpr => hagree pr
          (by simp only [List.zip_cons_cons]; exact List.mem_cons_of_mem _ hpr))
      rw [List.count_cons, htail]
      by_cases hig : y = ig
      · have h1 : (decide ((if threshold < sigmoid p then (1 : ℤ) else 0) =
            truncToInt y) && decide (y ≠ ig)) = false := by
          subst hig
          simp
        rw [h1]
        simp [hig]
      · have hhead' := hagree ((if threshold < sigmoid p then 1 else 0), y)
          (by simp only [List.zip_cons_cons]; exact List.mem_cons_self ..)
        have hhead : (((if threshold < sigmoid p then (1 : ℤ) else 0) : ℤ) : ℚ)
            = y := by
          simpa using hhead' hig
        have hbeq : (if threshold < sigmoid p then (1 : ℤ) else 0) =
            truncToInt y := by
          rw [← hhead, truncToInt_intCast]
        have h1 : (decide ((if threshold < sigmoid p then (1 : ℤ) else 0) =
            truncToInt y) && decide (y ≠ ig)) = true := by
          rw [hbeq]
          simp [hig]
        rw [h1]
        simp [hig]

lemma pixel_binary_accuracy_eq (sigmoid : ℚ → ℚ) (pred label : List ℚ)
    (threshold ig : ℚ) :
    pixel_binary_accuracy sigmoid pred label threshold ig =
      if 0 < (label.countP (fun y => decide (y ≠ ig)) : ℚ) then
        ((List.zipWith (fun (b : ℤ) (y : ℚ) =>
            decide (b = truncToInt y) && decide (y ≠ ig))
          (hardPredict sigmoid threshold pred) label).count true : ℚ) /
          (label.countP (fun y => decide (y ≠ ig)) : ℚ)
      else 0 := by
  simp only [pixel_binary_accuracy]
  rw [zipWith_and_map, sum_boolInd_eq_count, sum_boolInd_eq_count,
    count_true_map_eq_countP]

lemma snd_eq_of_mem_zip_self_map {β γ : Type} (l : List β) (f : β → γ)
    (pr : β × γ) (h : pr ∈ l.zip (l.map f)) : pr.2 = f pr.1 := by
  have hl : l.zip (l.map f) = l.map (fun a => (a, f a)) := by
    have := List.zip_map' id f l
    simpa using this
  rw [hl] at h
  obtain ⟨a, _, rfl⟩ := List.mem_map.mp h
  rfl

end FireRisk

/-- C2: with `sequence_length = 6`, `len` is `T - 6`, and for every valid
index the input tensor of `getitem` is the concatenation of the six
per-time-step land stacks at times `index .. index + 5` followed by the
pressure stack at time `index + 5`; its channel count is
`6 * |land variables| + |pressure variables|`. -/
theorem c2_dataset_len_and_channels {V α : Type}
    (d : FireRisk.FireRiskDataset V α) (index : ℕ)
    (hseq : d.sequence_length = 6) (hidx : index < d.len) :
    d.len = d.total_time_steps - 6 ∧
    (d.getitem index).1 =
      ((List.range' index 6).map
        (fun i => d.nc1_variables.map (fun v => d.f32 (d.ds1 v i)))).flatten ++
      d.nc2_variables.map (fun v => d.f32 (d.ds2 v (index + 5))) ∧
    (d.getitem index).1.length =
      6 * d.nc1_variables.length + d.nc2_variables.length := by
  have hstruct : (d.getitem index).1 =
      ((List.range' index 6).map
        (fun i => d.nc1_variables.map (fun v => d.f32 (d.ds1 v i)))).flatten ++
      d.nc2_variables.map (fun v => d.f32 (d.ds2 v (index + 5))) := by
    simp only [FireRisk.FireRiskDataset.getitem, hseq]
    rw [List.map_append, List.map_flatten, List.map_map]
    congr 1
    · congr 1
      apply List.map_congr_left
      intro i _
      simp [Function.comp, List.map_map]
    · rw [List.map_map]
      apply List.map_congr_left
      intro v _
      simp [Function.comp]
  refine ⟨by simp [FireRisk.FireRiskDataset.len, hseq], hstruct, ?_⟩
  rw [hstruct]
  simp [List.length_flatten, List.map_map, Function.comp_def]
  omega

/-- Witness for C2: a concrete dataset with 2 land variables, 1 pressure
variable, 8 time steps and sequence length 6, at index 0. -/
theorem c2_witness :
    (FireRisk.FireRiskDataset.mk
        (fun (v : ℕ) (t : ℕ) => v + 10 * t) (fun v t => v + 100 * t)
        (fun t => t) [0, 1] [5] 8 6 id).sequence_length = 6 ∧
    (0 : ℕ) < (FireRisk.FireRiskDataset.mk
        (fun (v : ℕ) (t : ℕ) => v + 10 * t) (fun v t => v + 100 * t)
        (fun t => t) [0, 1] [5] 8 6 id).len ∧
    ((FireRisk.FireRiskDataset.mk
        (fun (v : ℕ) (t : ℕ) => v + 10 * t) (fun v t => v + 100 * t)
        (fun t => t) [0, 1] [5] 8 6 id).getitem 0).1.length =
      6 * 2 + 1 := by
  refine ⟨rfl, by decide, ?_⟩
  have h := c2_dataset_len_and_channels
    (FireRisk.FireRiskDataset.mk
        (fun (v : ℕ) (t : ℕ) => v + 10 * t) (fun v t => v + 100 * t)
        (fun t => t) [0, 1] [5] 8 6 id) 0 rfl (by decide)
  simpa using h.2.2

/-- C3: for every valid sample index, the label returned by `getitem` is the
label-archive slice at position `index` itself — the start of the input
window — cast to float32. -/
theorem c3_label_at_window_start {V α : Type}
    (d : FireRisk.FireRiskDataset V α) (index : ℕ) (hidx : index < d.len) :
    (d.getitem index).2 = d.f32 (d.npy_data index) := rfl

/-- Witness for C3 on the same concrete dataset as C2. -/
theorem c3_witness :
    ((FireRisk.FireRiskDataset.mk
        (fun (v : ℕ) (t : ℕ) => v + 10 * t) (fun v t => v + 100 * t)
        (fun t => t + 1000) [0, 1] [5] 8 6 id).getitem 1).2 = 1001 := by
  have h := c3_label_at_window_start
    (FireRisk.FireRiskDataset.mk
        (fun (v : ℕ) (t : ℕ) => v + 10 * t) (fun v t => v + 100 * t)
        (fun t => t + 1000) [0, 1] [5] 8 6 id) 1 (by decide)
  simpa using h

/-- C1: for every length ≥ 0 and zero ratio in [0, 1],
`generate_binary_sequence` returns a sequence of exactly `length` elements,
each 0 or 1, with exactly `⌊length * zero_ratio⌋` zeros and the rest ones;
for a ratio outside [0, 1] it fails with the InvalidInput error. -/
theorem c1_generate_binary_sequence_correct
    (shuffle : List ℕ → List ℕ) (length : ℕ) (zfrac : ℚ)
    (hperm : ∀ l, List.Perm (shuffle l) l) :
    (∀ h0 : 0 ≤ zfrac, ∀ h1 : zfrac ≤ 1,
      ∃ s, FireRisk.generate_binary_sequence shuffle length zfrac = Except.ok s ∧
        s.length = length ∧
        (∀ x ∈ s, x = 0 ∨ x = 1) ∧
        s.count 0 = (⌊(length : ℚ) * zfrac⌋).toNat ∧
        (⌊(length : ℚ) * zfrac⌋).toNat ≤ length ∧
        s.count 1 = length - (⌊(length : ℚ) * zfrac⌋).toNat) ∧
    (¬ (0 ≤ zfrac ∧ zfrac ≤ 1) →
      FireRisk.generate_binary_sequence shuffle length zfrac =
        Except.error "InvalidInput") := by
  constructor
  · intro h0 h1
    set z : ℕ := (⌊(length : ℚ) * zfrac⌋).toNat with hz
    have hle : z ≤ length := FireRisk.zeros_count_le length zfrac h1
    have hok : FireRisk.generate_binary_sequence shuffle length zfrac =
        Except.ok (shuffle (List.replicate z 0 ++ List.replicate (length - z) 1)) := by
      unfold FireRisk.generate_binary_sequence
      rw [if_neg]
      push_neg
      exact ⟨h0, h1⟩
    refine ⟨shuffle (List.replicate z 0 ++ List.replicate (length - z) 1), hok, ?_, ?_, ?_, hle, ?_⟩
    · have := (hperm (List.replicate z 0 ++ List.replicate (length - z) 1)).length_eq
      simp [this]
      omega
    · intro x hx
      have hx' := (hperm _).mem_iff.mp hx
      rcases List.mem_append.mp hx' with h | h
      · exact Or.inl (List.eq_of_mem_replicate h)
      · exact Or.inr (List.eq_of_mem_replicate h)
    · have := (hperm (List.replicate z 0 ++ List.replicate (length - z) 1)).count_eq 0
      simp [this, List.count_replicate]
    · have := (hperm (List.replicate z 0 ++ List.replicate (length - z) 1)).count_eq 1
      simp [this, List.count_replicate]
  · intro hbad
    unfold FireRisk.generate_binary_sequence
    rw [if_pos hbad]

/-- Witness for C1 at the spec's example: length 10, zero ratio 3/10 gives
exactly 3 zeros and 7 ones. -/
theorem c1_witness :
    (∀ l : List ℕ, List.Perm (id l) l) ∧
    (∃ s, FireRisk.generate_binary_sequence id 10 (3 / 10) = Except.ok s ∧
      s.length = 10 ∧
      (∀ x ∈ s, x = 0 ∨ x = 1) ∧
      s.count 0 = (⌊(10 : ℚ) * (3 / 10)⌋).toNat ∧
      (⌊(10 : ℚ) * (3 / 10)⌋).toNat ≤ 10 ∧
      s.count 1 = 10 - (⌊(10 : ℚ) * (3 / 10)⌋).toNat) := by
  have hperm : ∀ l : List ℕ, List.Perm (id l) l := fun l => List.Perm.refl l
  refine ⟨hperm, ?_⟩
  exact (c1_generate_binary_sequence_correct id 10 (3 / 10) hperm).1
    (by norm_num) (by norm_num)

/-- C8: for the segmentation head with fixed weights, the hard-label output
at the default threshold 1/2 is the element-wise thresholding of the soft
(probability) output for the same input; hard values lie in {0, 1} and soft
values lie in [0, 1]. -/
theorem c8_head_hard_equals_thresholded_soft {α : Type}
    (self : FireRisk.BinarySegmentationHead α) (x : α)
    (hsig : ∀ z, 0 ≤ self.sigmoid z ∧ self.sigmoid z ≤ 1) :
    self.forward x true (1 / 2) =
      (self.forward x false (1 / 2)).map
        (fun p => if 1 / 2 < p then 1 else 0) ∧
    (∀ v ∈ self.forward x true (1 / 2), v = 0 ∨ v = 1) ∧
    (∀ v ∈ self.forward x false (1 / 2), 0 ≤ v ∧ v ≤ 1) := by
  refine ⟨rfl, ?_, ?_⟩
  · intro v hv
    simp only [FireRisk.BinarySegmentationHead.forward, if_true,
      List.mem_map] at hv
    obtain ⟨p, _, rfl⟩ := hv
    split <;> simp
  · intro v hv
    have hv' : v ∈ (self.conv x).map self.sigmoid := by
      simpa [FireRisk.BinarySegmentationHead.forward] using hv
    obtain ⟨p, _, rfl⟩ := List.mem_map.mp hv'
    exact hsig p

/-- Witness for C8: a concrete head whose sigmoid is constantly 1/2 on a
one-pixel input. -/
theorem c8_witness :
    (∀ z : ℚ, 0 ≤ (FireRisk.BinarySegmentationHead.mk
        (fun q : ℚ => [q, q + 1]) (fun _ => 1 / 2)).sigmoid z ∧
      (FireRisk.BinarySegmentationHead.mk
        (fun q : ℚ => [q, q + 1]) (fun _ => 1 / 2)).sigmoid z ≤ 1) ∧
    ((FireRisk.BinarySegmentationHead.mk
        (fun q : ℚ => [q, q + 1]) (fun _ => 1 / 2)).forward 0 true (1 / 2) =
      ((FireRisk.BinarySegmentationHead.mk
        (fun q : ℚ => [q, q + 1]) (fun _ => 1 / 2)).forward 0 false (1 / 2)).map
        (fun p => if 1 / 2 < p then 1 else 0) ∧
    (∀ v ∈ (FireRisk.BinarySegmentationHead.mk
        (fun q : ℚ => [q, q + 1]) (fun _ => 1 / 2)).forward 0 true (1 / 2),
        v = 0 ∨ v = 1) ∧
    (∀ v ∈ (FireRisk.BinarySegmentationHead.mk
        (fun q : ℚ => [q, q + 1]) (fun _ => 1 / 2)).forward 0 false (1 / 2),
        0 ≤ v ∧ v ≤ 1)) := by
  have hs : ∀ z : ℚ, 0 ≤ (FireRisk.BinarySegmentationHead.mk
      (fun q : ℚ => [q, q + 1]) (fun _ => 1 / 2)).sigmoid z ∧
      (FireRisk.BinarySegmentationHead.mk
        (fun q : ℚ => [q, q + 1]) (fun _ => 1 / 2)).sigmoid z ≤ 1 := by
    intro z
    constructor <;> norm_num
  exact ⟨hs, c8_head_hard_equals_thresholded_soft
    (FireRisk.BinarySegmentationHead.mk (fun q : ℚ => [q, q + 1])
      (fun _ => 1 / 2)) 0 hs⟩

/-- C10: in both the segmentation head and the accuracy metric the threshold
comparison is strict: a probability exactly equal to the threshold yields
hard prediction 0, and the hard prediction is 1 exactly when the probability
is strictly greater than the threshold. -/
theorem c10_strict_threshold {α : Type}
    (self : FireRisk.BinarySegmentationHead α) (x : α) (t : ℚ)
    (sigmoid : ℚ → ℚ) (pred : List ℚ) (threshold : ℚ) :
    (∀ pr ∈ ((self.conv x).map self.sigmoid).zip (self.forward x true t),
        (pr.1 = t → pr.2 = 0) ∧ (pr.2 = 1 ↔ t < pr.1)) ∧
    (∀ pr ∈ (pred.map sigmoid).zip
        (FireRisk.hardPredict sigmoid threshold pred),
        (pr.1 = threshold → pr.2 = 0) ∧ (pr.2 = 1 ↔ threshold < pr.1)) := by
  constructor
  · intro pr hpr
    have hfwd : self.forward x true t =
        ((self.conv x).map self.sigmoid).map
          (fun p => if t < p then (1 : ℚ) else 0) := rfl
    rw [hfwd] at hpr
    have h2 := FireRisk.snd_eq_of_mem_zip_self_map _ _ _ hpr
    refine ⟨?_, ?_⟩
    · intro h1
      rw [h2, h1]
      simp
    · rw [h2]
      by_cases h : t < pr.1 <;> simp [h]
  · intro pr hpr
    have hhp : FireRisk.hardPredict sigmoid threshold pred =
        (pred.map sigmoid).map
          (fun p => if threshold < p then (1 : ℤ) else 0) := rfl
    rw [hhp] at hpr
    have h2 := FireRisk.snd_eq_of_mem_zip_self_map _ _ _ hpr
    refine ⟨?_, ?_⟩
    · intro h1
      rw [h2, h1]
      simp
    · rw [h2]
      by_cases h : threshold < pr.1 <;> simp [h]

/-- C6: with reduction mean, the loss is the ignore-masked per-pixel BCE sum
divided by the count of non-ignored pixels whenever that count is positive,
and is exactly 0 whenever every label pixel equals the ignore sentinel (the
division is guarded, so the zero-valid case takes the harmless
`loss.mean() * 0` branch). -/
theorem c6_bce_mean_guarded (self : FireRisk.PixelBinaryCrossEntropyLoss)
    (sigmoid : ℚ → ℚ) (bce : ℚ → ℚ → ℚ) (logits label : List ℚ)
    (hred : self.reduction = "mean") (hw : self.weight = none) :
    (0 < label.countP (fun y => decide (y ≠ self.ignore_index)) →
      self.forward sigmoid bce logits label = FireRisk.PTensor.scalar
        ((List.zipWith
            (fun p y => if y = self.ignore_index then 0 else bce p y)
            (logits.map sigmoid) label).sum /
          (label.countP (fun y => decide (y ≠ self.ignore_index)) : ℚ))) ∧
    ((∀ y ∈ label, y = self.ignore_index) →
      self.forward sigmoid bce logits label = FireRisk.PTensor.scalar 0) := by
  have hmask :
      (label.map (fun y => if y ≠ self.ignore_index then (1 : ℚ) else 0)).sum =
        (label.countP (fun y => decide (y ≠ self.ignore_index)) : ℚ) :=
    FireRisk.sum_indicator_eq_countP _ label
  constructor
  · intro hpos
    have hpos' : (0 : ℚ) <
        (label.map (fun y => if y ≠ self.ignore_index then (1 : ℚ) else 0)).sum := by
      rw [hmask]
      exact_mod_cast hpos
    simp only [FireRisk.PixelBinaryCrossEntropyLoss.forward, hw, hred,
      if_pos rfl, if_pos hpos']
    rw [FireRisk.masked_loss_eq, hmask]
    simp
  · intro hall
    have hzero :
        (label.map (fun y => if y ≠ self.ignore_index then (1 : ℚ) else 0)).sum
          = 0 := by
      rw [hmask]
      have : label.countP (fun y => decide (y ≠ self.ignore_index)) = 0 := by
        rw [List.countP_eq_zero]
        intro y hy
        simp [hall y hy]
      rw [this]
      norm_num
    simp only [FireRisk.PixelBinaryCrossEntropyLoss.forward, hw, hred,
      if_pos rfl, hzero]
    norm_num

/-- Witness for C6: a concrete loss with ignore sentinel 255, one valid and
one ignored pixel. -/
theorem c6_witness :
    (0 < ([0, 255] : List ℚ).countP
      (fun y => decide (y ≠ (255 : ℚ)))) ∧
    FireRisk.PixelBinaryCrossEntropyLoss.forward ⟨none, "mean", 255⟩ id
      (fun p y => p + y) [1, 2] [0, 255] = FireRisk.PTensor.scalar 1 := by
  refine ⟨by decide, ?_⟩
  have h := (c6_bce_mean_guarded ⟨none, "mean", 255⟩ id (fun p y => p + y)
    [1, 2] [0, 255] rfl rfl).1 (by decide)
  rw [h]
  norm_num [List.zipWith, List.countP, List.countP.go]

/-- C7: the accuracy is the count of non-ignored pixels whose hard prediction
equals the label over the count of non-ignored pixels; it does not depend on
the predictions at ignored pixels (predictions agreeing outside a fully
ignored region score identically, and exactly 1 when they match the label on
every valid pixel); and it is exactly 0 when every pixel is ignored. -/
theorem c7_pixel_binary_accuracy_masked (sigmoid : ℚ → ℚ)
    (pred label : List ℚ) (threshold ig : ℚ)
    (hlen : pred.length = label.length)
    (hlab : ∀ y ∈ label, y = 0 ∨ y = 1 ∨ y = ig) :
    (0 < label.countP (fun y => decide (y ≠ ig)) →
      FireRisk.pixel_binary_accuracy sigmoid pred label threshold ig =
        ((List.zipWith (fun (b : ℤ) (y : ℚ) =>
            decide ((b : ℚ) = y) && decide (y ≠ ig))
          (FireRisk.hardPredict sigmoid threshold pred) label).count true : ℚ) /
          (label.countP (fun y => decide (y ≠ ig)) : ℚ)) ∧
    (∀ pred2 : List ℚ, pred2.length = label.length →
      (∀ pr ∈ pred.zip (pred2.zip label), pr.2.2 ≠ ig → pr.1 = pr.2.1) →
      FireRisk.pixel_binary_accuracy sigmoid pred label threshold ig =
        FireRisk.pixel_binary_accuracy sigmoid pred2 label threshold ig) ∧
    (0 < label.countP (fun y => decide (y ≠ ig)) →
      (∀ pr ∈ (FireRisk.hardPredict sigmoid threshold pred).zip label,
        pr.2 ≠ ig → (pr.1 : ℚ) = pr.2) →
      FireRisk.pixel_binary_accuracy sigmoid pred label threshold ig = 1) ∧
    ((∀ y ∈ label, y = ig) →
      FireRisk.pixel_binary_accuracy sigmoid pred label threshold ig = 0) := by
  refine ⟨?_, ?_, ?_, ?_⟩
  · intro hpos
    have hpos' : 0 < (label.countP (fun y => decide (y ≠ ig)) : ℚ) := by
      exact_mod_cast hpos
    rw [FireRisk.pixel_binary_accuracy_eq, if_pos hpos',
      FireRisk.code_correct_eq_claim ig _ _
        (FireRisk.hardPredict_mem sigmoid threshold pred) hlab]
  · intro pred2 h2len hagree
    rw [FireRisk.pixel_binary_accuracy_eq, FireRisk.pixel_binary_accuracy_eq,
      FireRisk.correct_congr sigmoid threshold ig label pred pred2 hlen h2len
        hagree]
  · intro hpos hmatch
    have hpos' : 0 < (label.countP (fun y => decide (y ≠ ig)) : ℚ) := by
      exact_mod_cast hpos
    rw [FireRisk.pixel_binary_accuracy_eq, if_pos hpos',
      FireRisk.correct_count_of_agree sigmoid threshold ig pred label hlen
        hmatch]
    exact div_self (ne_of_gt hpos')
  · intro hall
    have hzero : label.countP (fun y => decide (y ≠ ig)) = 0 := by
      rw [List.countP_eq_zero]
      intro y hy
      simp [hall y hy]
    rw [FireRisk.pixel_binary_accuracy_eq, hzero]
    norm_num

/-- Witness for C7: one valid pixel matching the hard prediction, one ignored
pixel with an arbitrary logit. -/
theorem c7_witness :
    ([(1 : ℚ), -1] : List ℚ).length = ([(1 : ℚ), 255] : List ℚ).length ∧
    (∀ y ∈ ([(1 : ℚ), 255] : List ℚ), y = 0 ∨ y = 1 ∨ y = 255) ∧
    (0 < ([(1 : ℚ), 255] : List ℚ).countP (fun y => decide (y ≠ (255 : ℚ))) →
      FireRisk.pixel_binary_accuracy id [1, -1] [1, 255] (1 / 2) 255 =
        ((List.zipWith (fun (b : ℤ) (y : ℚ) =>
            decide ((b : ℚ) = y) && decide (y ≠ (255 : ℚ)))
          (FireRisk.hardPredict id (1 / 2) [1, -1]) [1, 255]).count true : ℚ) /
          (([(1 : ℚ), 255] : List ℚ).countP
            (fun y => decide (y ≠ (255 : ℚ))) : ℚ)) := by
  have h := c7_pixel_binary_accuracy_masked id [1, -1] [1, 255] (1 / 2) 255
    (by decide) (by decide)
  exact ⟨by decide, by decide, h.1⟩

/-- C4 counterexample: in a concrete two-epoch run, `train_model` makes
exactly one `generate_binary_sequence` call — not one per epoch — and both
epochs read the very same mask, refuting the claim that a fresh mask is
generated at the start of every epoch. -/
theorem c4_counterexample :
    (FireRisk.train_model_trace id 20 (3 / 20) 2).genCalls.length = 1 ∧
    ¬ (FireRisk.train_model_trace id 20 (3 / 20) 2).genCalls.length = 2 ∧
    (FireRisk.train_model_trace id 20 (3 / 20) 2).epochMasks =
      [FireRisk.generate_binary_sequence id 20 (3 / 20),
        FireRisk.generate_binary_sequence id 20 (3 / 20)] :=
  ⟨rfl, by decide, rfl⟩

/-- C4 (amended): the split-mask length is computed once, before the epoch
loop (`len_val = ⌊val_ratio * len_data⌋`, `len_train = len_data − len_val`),
a single split mask is generated from the loader's sample count with
`generate_binary_sequence`, and every epoch reuses that same mask. -/
theorem c4_mask_generated_once (shuffle : List ℕ → List ℕ) (len_data : ℕ)
    (vfrac : ℚ) (epochs : ℕ) :
    (FireRisk.train_model_trace shuffle len_data vfrac epochs).genCalls =
      [(len_data, vfrac)] ∧
    (FireRisk.train_model_trace shuffle len_data vfrac epochs).len_val =
      (⌊vfrac * (len_data : ℚ)⌋).toNat ∧
    (FireRisk.train_model_trace shuffle len_data vfrac epochs).len_train =
      len_data - (⌊vfrac * (len_data : ℚ)⌋).toNat ∧
    (FireRisk.train_model_trace shuffle len_data vfrac epochs).epochMasks =
      List.replicate epochs
        (FireRisk.generate_binary_sequence shuffle len_data vfrac) ∧
    ∀ m ∈ (FireRisk.train_model_trace shuffle len_data vfrac epochs).epochMasks,
      m = FireRisk.generate_binary_sequence shuffle len_data vfrac := by
  refine ⟨rfl, rfl, rfl, rfl, ?_⟩
  intro m hm
  exact List.eq_of_mem_replicate hm

/-- C5: a checkpoint is written exactly at the epochs in `[1, epochs]` that
are divisible by 10, plus one final checkpoint at epoch `epochs` exactly
when `epochs` is not divisible by 10; each checkpoint epoch occurs once. -/
theorem c5_checkpoint_cadence (epochs e : ℕ) :
    (e ∈ FireRisk.checkpointEpochs epochs ↔
      (1 ≤ e ∧ e ≤ epochs ∧ e % 10 = 0) ∨ (e = epochs ∧ epochs % 10 ≠ 0)) ∧
    (FireRisk.checkpointEpochs epochs).Nodup := by
  constructor
  · simp only [FireRisk.checkpointEpochs, List.mem_append, List.mem_filter,
      List.mem_range'_1, decide_eq_true_eq]
    by_cases h : epochs % 10 = 0
    · simp only [h, ne_eq, not_true_eq_false, if_false, List.not_mem_nil,
        or_false]
      constructor
      · rintro ⟨⟨h1, h2⟩, h3⟩
        exact Or.inl ⟨h1, by omega, h3⟩
      · rintro (⟨h1, h2, h3⟩ | ⟨_, hF⟩)
        · exact ⟨⟨h1, by omega⟩, h3⟩
        · exact hF.elim
    · simp only [h, ne_eq, not_false_eq_true, if_true, List.mem_singleton]
      constructor
      · rintro (⟨⟨h1, h2⟩, h3⟩ | rfl)
        · exact Or.inl ⟨h1, by omega, h3⟩
        · exact Or.inr ⟨rfl, trivial⟩
      · rintro (⟨h1, h2, h3⟩ | ⟨rfl, _⟩)
        · exact Or.inl ⟨⟨h1, by omega⟩, h3⟩
        · exact Or.inr rfl
  · rw [FireRisk.checkpointEpochs, List.nodup_append]
    refine ⟨(List.nodup_range' ..).filter _, ?_, ?_⟩
    · by_cases h : epochs % 10 = 0 <;> simp [h]
    · intro a ha hb
      by_cases h : epochs % 10 = 0
      · simp [h] at hb
      · simp only [h, ne_eq, not_false_eq_true, if_true,
          List.mem_singleton] at hb
        subst hb
        have := (List.mem_filter.mp ha).2
        simp only [decide_eq_true_eq] at this
        exact h this

/-- C9: the F1 accumulators are unbound when the evaluation loop starts, and
processing any batch whose split-mask bit comes from `generate_binary_sequence`
(hence is 0 or 1, so the batch is counted) fails with an
uninitialized-variable error. -/
theorem c9_eval_f1_uninitialized (shuffle : List ℕ → List ℕ)
    (hperm : ∀ l, List.Perm (shuffle l) l) (len_data : ℕ) (vfrac : ℚ)
    (musk : List ℕ)
    (hmask : FireRisk.generate_binary_sequence shuffle len_data vfrac =
      Except.ok musk)
    (i : ℕ) (hi : i < musk.length) (lossv accv f1v : ℚ) :
    FireRisk.initEvalAccs.total_train_f1 = none ∧
    FireRisk.initEvalAccs.total_val_f1 = none ∧
    FireRisk.evalBatchStep FireRisk.initEvalAccs (musk.get ⟨i, hi⟩)
      lossv accv f1v = none := by
  refine ⟨rfl, rfl, ?_⟩
  have hbit := FireRisk.generate_mem_binary shuffle hperm len_data vfrac musk
    hmask (musk.get ⟨i, hi⟩) (musk.get_mem i hi)
  rcases hbit with h0 | h1
  · rw [h0]
    rfl
  · rw [h1]
    rfl

/-- Witness for C9: the concrete mask `[0, 1]` produced for two samples and
validation fraction 1/2; its first batch (mask bit 0) already fails. -/
theorem c9_witness :
    (∀ l : List ℕ, List.Perm (id l) l) ∧
    FireRisk.generate_binary_sequence id 2 (1 / 2) = Except.ok [0, 1] ∧
    (0 : ℕ) < ([0, 1] : List ℕ).length ∧
    FireRisk.evalBatchStep FireRisk.initEvalAccs
      (([0, 1] : List ℕ).get ⟨0, by decide⟩) 1 1 1 = none := by
  have hperm : ∀ l : List ℕ, List.Perm (id l) l := fun l => List.Perm.refl l
  have hmask : FireRisk.generate_binary_sequence id 2 (1 / 2) =
      Except.ok [0, 1] := by
    have hcond : ((0 : ℚ) ≤ 1 / 2 ∧ (1 : ℚ) / 2 ≤ 1) := by norm_num
    have hfl : (⌊((2 : ℕ) : ℚ) * (1 / 2)⌋ : ℤ) = 1 := by norm_num
    unfold FireRisk.generate_binary_sequence
    rw [if_neg (not_not_intro hcond)]
    simp only [hfl]
    rfl
  refine ⟨hperm, hmask, by decide, ?_⟩
  exact (c9_eval_f1_uninitialized id hperm 2 (1 / 2) [0, 1] hmask 0
    (by decide) 1 1 1).2.2
